import Mathlib

/-!
Verification of the sokoban software rasterizer and work-queue scheduler.

This file is a shallow embedding of the C sources:
  code/sokoban_render.c   (immediate_clear, immediate_rectangle,
                           immediate_screen_bitmap, immediate_bitmap)
  code/platform_linux.c   (platform_enqueue_work, linux_dequeue_work,
                           platform_complete_queue)
  code/platform.h         (tile-grid configuration constants, work queue)
  code/sokoban.c          (render_stationary_tiles_all tile partitioning)
  code/sokoban_math.c     (floor_s32, ceiling_s32)
  code/platform_intrinsics.h (four-lane SIMD operations)

Modelling conventions:
  - 32-bit float values are modelled by exact rationals.  All claims under
    study involve only computations whose float evaluation is exact (or whose
    rounding slack is well below the 0.5 threshold of the final conversion),
    so the rational model is faithful at the granularity of the claims.
  - The SSE conversion _mm_cvtps_epi32 rounds to nearest; it is modelled by
    Mathlib round (ties differ only at exact halves, which no claim touches).
  - C integer casts of floats truncate toward zero (trunc_q below).
  - u32 values are natural numbers; wrap-around is explicit (% 2^32).
  - Pixel memory is a total function from flat s32 addresses to u32 values,
    so out-of-buffer reads and writes are expressible and provable absent.
  - The work queue's callbacks mutate a world of type sigma; an entry's
    data pointer plus callback function is modelled as one function
    sigma -> sigma.  The single-threaded (producer-only) execution of the
    queue is deterministic and modelled directly; the spin loop of
    platform_complete_queue receives explicit fuel, exhaustion standing for
    nontermination.
-/

/-- C macro MAXIMUM from platform.h. -/
def MAXIMUM (a b : ℤ) : ℤ := if a > b then a else b

/-- C macro MINIMUM from platform.h. -/
def MINIMUM (a b : ℤ) : ℤ := if a < b then a else b

/-- C cast of a float to an integer type: truncation toward zero. -/
def trunc_q (x : ℚ) : ℤ := if x < 0 then ⌈x⌉ else ⌊x⌋

/-- floor_s32 from sokoban_math.c. -/
def floor_s32 (x : ℚ) : ℤ := ⌊x⌋

/-- ceiling_s32 from sokoban_math.c. -/
def ceiling_s32 (x : ℚ) : ℤ := ⌈x⌉

/-- The inclusive integer range lo..hi, as iterated by a C for loop. -/
def intRange (lo hi : ℤ) : List ℤ :=
  (List.range (hi + 1 - lo).toNat).map (fun (n : ℕ) => lo + (n : ℤ))

/-- struct v2: two-component float vector. -/
structure v2 where
  x : ℚ
  y : ℚ

/-- struct render_bitmap from renderer.h: dimensions plus pixel memory. -/
structure render_bitmap where
  width : ℤ
  height : ℤ
  offsetx : ℤ
  offsety : ℤ
  memory : ℤ → Nat

/-- A single u32 store through a pixel pointer. -/
def storePixel (m : ℤ → Nat) (i : ℤ) (c : Nat) : ℤ → Nat :=
  fun j => if j = i then c else m j

/-! Four-lane SIMD vector types of platform_intrinsics.h. -/

/-- u32_4x: four 32-bit unsigned integer lanes. -/
structure u32_4x where
  lane0 : Nat
  lane1 : Nat
  lane2 : Nat
  lane3 : Nat

/-- f32_4x: four float lanes, modelled by exact rationals. -/
structure f32_4x where
  lane0 : ℚ
  lane1 : ℚ
  lane2 : ℚ
  lane3 : ℚ

def u32_4x_set1 (v : Nat) : u32_4x := ⟨v, v, v, v⟩

def u32_4x_and (a b : u32_4x) : u32_4x :=
  ⟨a.lane0 &&& b.lane0, a.lane1 &&& b.lane1, a.lane2 &&& b.lane2, a.lane3 &&& b.lane3⟩

def u32_4x_or (a b : u32_4x) : u32_4x :=
  ⟨a.lane0 ||| b.lane0, a.lane1 ||| b.lane1, a.lane2 ||| b.lane2, a.lane3 ||| b.lane3⟩

def u32_4x_slli (a : u32_4x) (n : Nat) : u32_4x :=
  ⟨(a.lane0 <<< n) % 2 ^ 32, (a.lane1 <<< n) % 2 ^ 32,
   (a.lane2 <<< n) % 2 ^ 32, (a.lane3 <<< n) % 2 ^ 32⟩

def u32_4x_srli (a : u32_4x) (n : Nat) : u32_4x :=
  ⟨a.lane0 >>> n, a.lane1 >>> n, a.lane2 >>> n, a.lane3 >>> n⟩

def u32_4x_loadu (m : ℤ → Nat) (p : ℤ) : u32_4x :=
  ⟨m p, m (p + 1), m (p + 2), m (p + 3)⟩

def u32_4x_storeu (m : ℤ → Nat) (p : ℤ) (v : u32_4x) : ℤ → Nat :=
  fun j =>
    if j = p then v.lane0
    else if j = p + 1 then v.lane1
    else if j = p + 2 then v.lane2
    else if j = p + 3 then v.lane3
    else m j

def f32_4x_set1 (v : ℚ) : f32_4x := ⟨v, v, v, v⟩

def f32_4x_add (a b : f32_4x) : f32_4x :=
  ⟨a.lane0 + b.lane0, a.lane1 + b.lane1, a.lane2 + b.lane2, a.lane3 + b.lane3⟩

def f32_4x_sub (a b : f32_4x) : f32_4x :=
  ⟨a.lane0 - b.lane0, a.lane1 - b.lane1, a.lane2 - b.lane2, a.lane3 - b.lane3⟩

def f32_4x_mul (a b : f32_4x) : f32_4x :=
  ⟨a.lane0 * b.lane0, a.lane1 * b.lane1, a.lane2 * b.lane2, a.lane3 * b.lane3⟩

/-- int-to-float lane conversion (_mm_cvtepi32_ps); lanes in this program
are always byte-masked, hence nonnegative. -/
def f32_4x_convert_u32_4x (v : u32_4x) : f32_4x :=
  ⟨(v.lane0 : ℚ), (v.lane1 : ℚ), (v.lane2 : ℚ), (v.lane3 : ℚ)⟩

/-- float-to-int lane conversion (_mm_cvtps_epi32): round to nearest,
reinterpreted as an unsigned 32-bit value. -/
def cvt_lane (x : ℚ) : Nat := ((round x) % (2 ^ 32)).toNat

def u32_4x_convert_f32_4x (v : f32_4x) : u32_4x :=
  ⟨cvt_lane v.lane0, cvt_lane v.lane1, cvt_lane v.lane2, cvt_lane v.lane3⟩

/-- The list of x values stepped by for(x = 0; x < width; x += 4). -/
def chunkStarts (width : ℤ) : List ℤ :=
  (List.range ((width.toNat + 3) / 4)).map (fun (k : ℕ) => 4 * (k : ℤ))

/-! ## Rasterizer operations (sokoban_render.c) -/

/-- immediate_clear: writes color to every pixel, four lanes at a time.
The C code asserts width % 4 == 0; the loops are modelled for all widths. -/
def immediate_clear (destination : render_bitmap) (color : Nat) : render_bitmap :=
  let wide_color := u32_4x_set1 color
  { destination with
    memory :=
      (intRange 0 (destination.height - 1)).foldl (fun mem y =>
        (chunkStarts destination.width).foldl (fun mem x =>
          u32_4x_storeu mem (y * destination.width + x) wide_color) mem)
        destination.memory }

/-- immediate_rectangle: scalar fill of an axis-aligned rectangle clipped to
the buffer, bounds obtained by casting the float coordinates to s32. -/
def immediate_rectangle (destination : render_bitmap) (min max : v2) (color : Nat) :
    render_bitmap :=
  let minx := MAXIMUM 0 (trunc_q min.x)
  let miny := MAXIMUM 0 (trunc_q min.y)
  let maxx := MINIMUM (trunc_q max.x) (destination.width - 1)
  let maxy := MINIMUM (trunc_q max.y) (destination.height - 1)
  { destination with
    memory :=
      (intRange miny maxy).foldl (fun mem y =>
        (intRange minx maxx).foldl (fun mem x =>
          storePixel mem (y * destination.width + x) color) mem)
        destination.memory }

/-- The per-lane color computation of immediate_screen_bitmap's inner loop
(lines 96-137 of sokoban_render.c), from loaded source and destination
pixels to the stored pixel vector. -/
def screen_color (alpha_modulation : ℚ) (source_color destination_color : u32_4x) : u32_4x :=
  let wide_mask255 := u32_4x_set1 0xFF
  let wide_one := f32_4x_set1 1
  let wide_255 := f32_4x_set1 255
  let wide_one_over_255 := f32_4x_set1 (1 / 255)
  let wide_alpha_modulation := f32_4x_set1 alpha_modulation
  let wide_alpha_modulation_over_255 := f32_4x_set1 (alpha_modulation / 255)
  let source_r := f32_4x_convert_u32_4x (u32_4x_and (u32_4x_srli source_color 16) wide_mask255)
  let source_g := f32_4x_convert_u32_4x (u32_4x_and (u32_4x_srli source_color 8) wide_mask255)
  let source_b := f32_4x_convert_u32_4x (u32_4x_and source_color wide_mask255)
  let source_a := f32_4x_convert_u32_4x (u32_4x_and (u32_4x_srli source_color 24) wide_mask255)
  let destination_r := f32_4x_convert_u32_4x (u32_4x_and (u32_4x_srli destination_color 16) wide_mask255)
  let destination_g := f32_4x_convert_u32_4x (u32_4x_and (u32_4x_srli destination_color 8) wide_mask255)
  let destination_b := f32_4x_convert_u32_4x (u32_4x_and destination_color wide_mask255)
  let destination_a := f32_4x_convert_u32_4x (u32_4x_and (u32_4x_srli destination_color 24) wide_mask255)
  let source_r := f32_4x_mul source_r wide_alpha_modulation
  let source_g := f32_4x_mul source_g wide_alpha_modulation
  let source_b := f32_4x_mul source_b wide_alpha_modulation
  let source_anormal := f32_4x_mul wide_alpha_modulation_over_255 source_a
  let destination_anormal := f32_4x_mul wide_one_over_255 destination_a
  let inverse_source_anormal := f32_4x_sub wide_one source_anormal
  let r := f32_4x_add (f32_4x_mul inverse_source_anormal destination_r) source_r
  let g := f32_4x_add (f32_4x_mul inverse_source_anormal destination_g) source_g
  let b := f32_4x_add (f32_4x_mul inverse_source_anormal destination_b) source_b
  let a := f32_4x_mul source_anormal destination_anormal
  let a := f32_4x_add a source_anormal
  let a := f32_4x_add a source_anormal
  let a := f32_4x_mul a wide_255
  let shift_r := u32_4x_slli (u32_4x_convert_f32_4x r) 16
  let shift_g := u32_4x_slli (u32_4x_convert_f32_4x g) 8
  let shift_b := u32_4x_convert_f32_4x b
  let shift_a := u32_4x_slli (u32_4x_convert_f32_4x a) 24
  u32_4x_or (u32_4x_or shift_r shift_g) (u32_4x_or shift_b shift_a)

/-- immediate_screen_bitmap: full-buffer blend, four pixels at a time.
The C code asserts equal dimensions; the loops run over the destination. -/
def immediate_screen_bitmap (destination source : render_bitmap)
    (alpha_modulation : ℚ) : render_bitmap :=
  { destination with
    memory :=
      (intRange 0 (destination.height - 1)).foldl (fun mem y =>
        (chunkStarts destination.width).foldl (fun mem x =>
          let source_color := u32_4x_loadu source.memory (y * source.width + x)
          let destination_color := u32_4x_loadu mem (y * destination.width + x)
          u32_4x_storeu mem (y * destination.width + x)
            (screen_color alpha_modulation source_color destination_color)) mem)
        destination.memory }

/-- The u-to-sourcex texel mapping of immediate_bitmap (lines 176-189 of
sokoban_render.c), identical for both axes: normalized coordinate within
the unclipped target extent, clamped to the unit interval, mapped into the
source with a one-pixel inset margin. -/
def source_coord (source_dim render_dim : ℤ) (x : ℤ) : ℤ :=
  let u : ℚ := (x : ℚ) / ((render_dim : ℚ) - 1)
  let u := if u < 0 then 0 else u
  let u := if u > 1 then 1 else u
  1 + trunc_q (u * ((source_dim : ℚ) - 3) + 1 / 2)

/-- The per-pixel premultiplied-over composite of immediate_bitmap
(lines 194-220 of sokoban_render.c). -/
def bitmap_pixel (source_color destination_color : Nat) : Nat :=
  let sr : ℚ := ((source_color >>> 16) &&& 0xFF : Nat)
  let sg : ℚ := ((source_color >>> 8) &&& 0xFF : Nat)
  let sb : ℚ := ((source_color >>> 0) &&& 0xFF : Nat)
  let sa : ℚ := ((source_color >>> 24) &&& 0xFF : Nat)
  let dr : ℚ := ((destination_color >>> 16) &&& 0xFF : Nat)
  let dg : ℚ := ((destination_color >>> 8) &&& 0xFF : Nat)
  let db : ℚ := ((destination_color >>> 0) &&& 0xFF : Nat)
  let da : ℚ := ((destination_color >>> 24) &&& 0xFF : Nat)
  let sanormal := sa / 255
  let r := (1 - sanormal) * dr + sr
  let g := (1 - sanormal) * dg + sg
  let b := (1 - sanormal) * db + sb
  let a := (1 - sanormal) * da + sa
  ((trunc_q (r + 1 / 2)).toNat <<< 16 |||
   (trunc_q (g + 1 / 2)).toNat <<< 8 |||
   (trunc_q (b + 1 / 2)).toNat <<< 0 |||
   (trunc_q (a + 1 / 2)).toNat <<< 24) % 2 ^ 32

/-- immediate_bitmap: scaled blit of source into a render_width by
render_height target region anchored at fractional (posx, posy). -/
def immediate_bitmap (destination source : render_bitmap) (posx posy : ℚ)
    (render_width render_height : ℤ) : render_bitmap :=
  let minx := floor_s32 posx
  let miny := floor_s32 posy
  let maxx := ceiling_s32 (posx + ((render_width : ℚ) - 1))
  let maxy := ceiling_s32 (posy + ((render_height : ℚ) - 1))
  let minx := if minx < 0 then 0 else minx
  let miny := if miny < 0 then 0 else miny
  let maxx := if maxx ≥ destination.width then destination.width - 1 else maxx
  let maxy := if maxy ≥ destination.height then destination.height - 1 else maxy
  { destination with
    memory :=
      (intRange miny maxy).foldl (fun mem destinationy =>
        (intRange minx maxx).foldl (fun mem destinationx =>
          let x := destinationx - minx
          let y := destinationy - miny
          let sourcex := source_coord source.width render_width x
          let sourcey := source_coord source.height render_height y
          let source_color := source.memory (sourcey * source.width + sourcex)
          let destination_color := mem (destinationy * destination.width + destinationx)
          storePixel mem (destinationy * destination.width + destinationx)
            (bitmap_pixel source_color destination_color)) mem)
        destination.memory }

/-- The scalar (single-lane) specialization of the screen blend: what one
lane of screen_color computes from one source and destination pixel. -/
def screen_pixel (alpha_modulation : ℚ) (s d : Nat) : Nat :=
  (screen_color alpha_modulation (u32_4x_set1 s) (u32_4x_set1 d)).lane0

/-! ## Work queue (platform.h, platform_linux.c)

An entry's data pointer and callback are modelled together as one function
on a world type sigma.  Execution is the deterministic producer-only
interleaving: the single compare-and-swap in linux_dequeue_work always
succeeds, exactly as it does when no background worker contends. -/

/-- struct platform_work_queue: capacity-512 circular buffer plus the
synchronization counters.  Entries are a total map from slot index. -/
structure platform_work_queue (σ : Type) where
  read_index : Nat
  write_index : Nat
  completion_target : Nat
  completion_count : Nat
  entries : Nat → (σ → σ)

/-- A freshly initialized (zeroed) work queue; uninitialized entry slots
are modelled as the identity callback. -/
def emptyQueue (σ : Type) : platform_work_queue σ :=
  ⟨0, 0, 0, 0, fun _ => id⟩

/-- platform_enqueue_work: writes the entry at write_index, bumps the
completion target, publishes the new write index.  The C assertion
new_write_index != read_index is modelled as the none result. -/
def platform_enqueue_work {σ : Type} (queue : platform_work_queue σ) (work : σ → σ) :
    Option (platform_work_queue σ) :=
  let new_write_index := (queue.write_index + 1) % 512
  if new_write_index = queue.read_index then none
  else some
    { queue with
      entries := fun i => if i = queue.write_index then work else queue.entries i
      completion_target := queue.completion_target + 1
      write_index := new_write_index }

/-- linux_dequeue_work, producer-only interleaving: returns whether the
caller should wait, plus the updated queue and world.  When the queue is
nonempty the compare-and-swap succeeds, the claimed entry's callback runs
and the completion count is bumped. -/
def linux_dequeue_work {σ : Type} (queue : platform_work_queue σ) (s : σ) :
    Bool × platform_work_queue σ × σ :=
  let read_index := queue.read_index
  let new_read_index := (read_index + 1) % 512
  if read_index = queue.write_index then (true, queue, s)
  else
    (false,
     { queue with
       read_index := new_read_index
       completion_count := queue.completion_count + 1 },
     queue.entries read_index s)

/-- The spin loop of platform_complete_queue, with explicit fuel; none
stands for fuel exhaustion (the loop still spinning). -/
def complete_queue_loop {σ : Type} :
    Nat → platform_work_queue σ → σ → Option (platform_work_queue σ × σ)
  | 0, queue, s =>
      if queue.completion_target > queue.completion_count then none else some (queue, s)
  | fuel + 1, queue, s =>
      if queue.completion_target > queue.completion_count then
        let r := linux_dequeue_work queue s
        complete_queue_loop fuel r.2.1 r.2.2
      else some (queue, s)

/-- platform_complete_queue: spin until the completion target is met, then
reset both counters to zero. -/
def platform_complete_queue {σ : Type} (fuel : Nat) (queue : platform_work_queue σ)
    (s : σ) : Option (platform_work_queue σ × σ) :=
  (complete_queue_loop fuel queue s).map
    (fun r => ({ r.1 with completion_target := 0, completion_count := 0 }, r.2))

/-- Sequential enqueue of a list of work items, failing if any single
enqueue trips the capacity assertion. -/
def enqueue_all {σ : Type} (queue : platform_work_queue σ) :
    List (σ → σ) → Option (platform_work_queue σ)
  | [] => some queue
  | c :: cs =>
    match platform_enqueue_work queue c with
    | none => none
    | some q2 => enqueue_all q2 cs

/-- The full producer-only scenario: enqueue the given work items into an
initially empty queue, then run platform_complete_queue with just enough
fuel for the pending work. -/
def producer_only_run {σ : Type} (cs : List (σ → σ)) (s : σ) :
    Option (platform_work_queue σ × σ) :=
  match enqueue_all (emptyQueue σ) cs with
  | none => none
  | some q => platform_complete_queue (cs.length + 1) q s

/-! ## Tile-partitioning scheduler (platform.h, sokoban.c) -/

def SCREEN_TILE_COUNT_X : Nat := 30
def SCREEN_TILE_COUNT_Y : Nat := 20
def RENDER_TILE_COUNT_X : Nat := 6
def RENDER_TILE_COUNT_Y : Nat := 4
def TILES_PER_RENDER_TILE_X : Nat := SCREEN_TILE_COUNT_X / RENDER_TILE_COUNT_X
def TILES_PER_RENDER_TILE_Y : Nat := SCREEN_TILE_COUNT_Y / RENDER_TILE_COUNT_Y

/-- struct render_tile_data, restricted to the tile-range fields the
partition claim is about (render_output and gs are shared references). -/
structure render_tile_data where
  min_tilex : Nat
  min_tiley : Nat
  max_tilex : Nat
  max_tiley : Nat

/-- The render-tile task array built by the double loop of
render_stationary_tiles_all (sokoban.c lines 1206-1228), in enqueue
order. -/
def render_tiles : List render_tile_data :=
  (List.range RENDER_TILE_COUNT_Y).flatMap (fun y =>
    (List.range RENDER_TILE_COUNT_X).map (fun x =>
      let min_tiley := TILES_PER_RENDER_TILE_Y * y
      let max_tiley := Nat.min (min_tiley + TILES_PER_RENDER_TILE_Y - 1) (SCREEN_TILE_COUNT_Y - 1)
      let min_tilex := TILES_PER_RENDER_TILE_X * x
      let max_tilex := Nat.min (min_tilex + TILES_PER_RENDER_TILE_X - 1) (SCREEN_TILE_COUNT_X - 1)
      { min_tilex := min_tilex, min_tiley := min_tiley,
        max_tilex := max_tilex, max_tiley := max_tiley }))

/-- Whether a render-tile task's sub-rectangle covers the tile cell. -/
def covers (t : render_tile_data) (tilex tiley : Nat) : Bool :=
  decide (t.min_tilex ≤ tilex ∧ tilex ≤ t.max_tilex ∧
          t.min_tiley ≤ tiley ∧ tiley ≤ t.max_tiley)

/-! ## Generic lemmas about pixel-store loops -/

theorem mem_intRange {lo hi j : ℤ} : j ∈ intRange lo hi ↔ lo ≤ j ∧ j ≤ hi := by
  unfold intRange
  simp only [List.mem_map, List.mem_range]
  constructor
  · rintro ⟨n, hn, rfl⟩
    omega
  · rintro ⟨h1, h2⟩
    exact ⟨(j - lo).toNat, by omega, by omega⟩

theorem foldl_over_flatMap {α β γ : Type} (g : β → α → β) (ys : List γ)
    (f : γ → List α) (b : β) :
    (ys.flatMap f).foldl g b = ys.foldl (fun b y => (f y).foldl g b) b := by
  induction ys generalizing b with
  | nil => rfl
  | cons y ys ih => simp only [List.flatMap_cons, List.foldl_append, List.foldl_cons, ih]

theorem foldl_storePixel_const {α : Type} (idx : α → ℤ) (c : Nat) (ks : List α)
    (m : ℤ → Nat) (j : ℤ) :
    (ks.foldl (fun mem k => storePixel mem (idx k) c) m) j
      = if ∃ k ∈ ks, idx k = j then c else m j := by
  induction ks generalizing m with
  | nil => simp
  | cons a t ih =>
    simp only [List.foldl_cons, ih]
    by_cases ht : ∃ k ∈ t, idx k = j
    · obtain ⟨k, hk, hkj⟩ := ht
      rw [if_pos ⟨k, hk, hkj⟩, if_pos ⟨k, List.mem_cons_of_mem a hk, hkj⟩]
    · rw [if_neg ht]
      by_cases hj : j = idx a
      · rw [if_pos ⟨a, List.mem_cons_self a t, hj.symm⟩]
        simp [storePixel, hj]
      · have hcons : ¬∃ k ∈ a :: t, idx k = j := by
          rintro ⟨k, hk, hkj⟩
          rcases List.mem_cons.mp hk with rfl | hk
          · exact hj hkj.symm
          · exact ht ⟨k, hk, hkj⟩
        rw [if_neg hcons]
        simp [storePixel, hj]

theorem foldl_store4_const {α : Type} (idx : α → ℤ) (c : Nat) (ks : List α)
    (m : ℤ → Nat) (j : ℤ) :
    (ks.foldl (fun mem k => u32_4x_storeu mem (idx k) (u32_4x_set1 c)) m) j
      = if ∃ k ∈ ks, idx k ≤ j ∧ j ≤ idx k + 3 then c else m j := by
  induction ks generalizing m with
  | nil => simp
  | cons a t ih =>
    simp only [List.foldl_cons, ih]
    by_cases ht : ∃ k ∈ t, idx k ≤ j ∧ j ≤ idx k + 3
    · obtain ⟨k, hk, hkj⟩ := ht
      rw [if_pos ⟨k, hk, hkj⟩, if_pos ⟨k, List.mem_cons_of_mem a hk, hkj⟩]
    · rw [if_neg ht]
      by_cases hj : idx a ≤ j ∧ j ≤ idx a + 3
      · rw [if_pos ⟨a, List.mem_cons_self a t, hj⟩]
        simp only [u32_4x_storeu, u32_4x_set1]
        split_ifs <;> omega
      · have hcons : ¬∃ k ∈ a :: t, idx k ≤ j ∧ j ≤ idx k + 3 := by
          rintro ⟨k, hk, hkj⟩
          rcases List.mem_cons.mp hk with rfl | hk
          · exact hj hkj
          · exact ht ⟨k, hk, hkj⟩
        rw [if_neg hcons]
        simp only [u32_4x_storeu, u32_4x_set1]
        split_ifs <;> omega

theorem foldl_storeT_untouched {α : Type} (g : α → Nat → Nat) (idx : α → ℤ)
    (ks : List α) (m : ℤ → Nat) (j : ℤ) (h : ∀ k ∈ ks, idx k ≠ j) :
    (ks.foldl (fun mem k => storePixel mem (idx k) (g k (mem (idx k)))) m) j = m j := by
  induction ks generalizing m with
  | nil => rfl
  | cons a t ih =>
    simp only [List.foldl_cons]
    rw [ih _ (fun k hk => h k (List.mem_cons_of_mem a hk))]
    simp only [storePixel]
    rw [if_neg (fun hja => h a (List.mem_cons_self a t) hja.symm)]

theorem foldl_storeT_applied {α : Type} (g : α → Nat → Nat) (idx : α → ℤ)
    (ks : List α) (hnd : ks.Pairwise (fun a b => idx a ≠ idx b))
    (m : ℤ → Nat) (k : α) (hk : k ∈ ks) :
    (ks.foldl (fun mem k => storePixel mem (idx k) (g k (mem (idx k)))) m) (idx k)
      = g k (m (idx k)) := by
  induction ks generalizing m with
  | nil => cases hk
  | cons a t ih =>
    rcases List.pairwise_cons.mp hnd with ⟨ha, hp⟩
    simp only [List.foldl_cons]
    rcases List.mem_cons.mp hk with rfl | hkt
    · rw [foldl_storeT_untouched g idx t _ _ (fun b hb => (ha b hb).symm)]
      simp [storePixel]
    · rw [ih hp _ hkt]
      have hne : idx k ≠ idx a := fun h => ha k hkt h.symm
      simp only [storePixel]
      rw [if_neg hne]

theorem foldl_chunkT {α : Type} (f : ℤ → Nat → Nat) (idx : α → ℤ) (ks : List α)
    (hnd : ks.Pairwise (fun a b => idx a + 4 ≤ idx b ∨ idx b + 4 ≤ idx a))
    (m : ℤ → Nat) (j : ℤ) :
    (ks.foldl (fun mem k => u32_4x_storeu mem (idx k)
        ⟨f (idx k) (mem (idx k)), f (idx k + 1) (mem (idx k + 1)),
         f (idx k + 2) (mem (idx k + 2)), f (idx k + 3) (mem (idx k + 3))⟩) m) j
      = if ∃ k ∈ ks, idx k ≤ j ∧ j ≤ idx k + 3 then f j (m j) else m j := by
  induction ks generalizing m with
  | nil => simp
  | cons a t ih =>
    rcases List.pairwise_cons.mp hnd with ⟨ha, hp⟩
    simp only [List.foldl_cons, ih hp]
    by_cases hj : idx a ≤ j ∧ j ≤ idx a + 3
    · have htf : ¬∃ k ∈ t, idx k ≤ j ∧ j ≤ idx k + 3 := by
        rintro ⟨k, hk, hkj⟩
        rcases ha k hk with h4 | h4 <;> omega
      rw [if_neg htf, if_pos ⟨a, List.mem_cons_self a t, hj⟩]
      simp only [u32_4x_storeu]
      rcases (by omega : j = idx a ∨ j = idx a + 1 ∨ j = idx a + 2 ∨ j = idx a + 3)
        with rfl | h1 | h2 | h3
      · rw [if_pos rfl]
      · rw [if_neg (by omega), if_pos h1]
        rw [h1]
      · rw [if_neg (by omega), if_neg (by omega), if_pos h2]
        rw [h2]
      · rw [if_neg (by omega), if_neg (by omega), if_neg (by omega), if_pos h3]
        rw [h3]
    · have hm : u32_4x_storeu m (idx a)
          ⟨f (idx a) (m (idx a)), f (idx a + 1) (m (idx a + 1)),
           f (idx a + 2) (m (idx a + 2)), f (idx a + 3) (m (idx a + 3))⟩ j = m j := by
        simp only [u32_4x_storeu]
        rw [if_neg (by omega), if_neg (by omega), if_neg (by omega), if_neg (by omega)]
      by_cases ht : ∃ k ∈ t, idx k ≤ j ∧ j ≤ idx k + 3
      · obtain ⟨k, hk, hkj⟩ := ht
        rw [if_pos ⟨k, hk, hkj⟩, if_pos ⟨k, List.mem_cons_of_mem a hk, hkj⟩, hm]
      · have hcons : ¬∃ k ∈ a :: t, idx k ≤ j ∧ j ≤ idx k + 3 := by
          rintro ⟨k, hk, hkj⟩
          rcases List.mem_cons.mp hk with rfl | hk
          · exact hj hkj
          · exact ht ⟨k, hk, hkj⟩
        rw [if_neg ht, if_neg hcons, hm]

/-! ## Work queue lemmas (producer-only execution) -/

theorem enqueue_all_no_wrap {σ : Type} (cs : List (σ → σ)) (q : platform_work_queue σ)
    (h0 : q.read_index = 0) (hw : q.write_index + cs.length ≤ 511) :
    ∃ q2, enqueue_all q cs = some q2 ∧
      q2.read_index = 0 ∧
      q2.write_index = q.write_index + cs.length ∧
      q2.completion_target = q.completion_target + cs.length ∧
      q2.completion_count = q.completion_count ∧
      (∀ i : Nat, i < q.write_index → q2.entries i = q.entries i) ∧
      (∀ i : Nat, ∀ c, cs[i]? = some c → q2.entries (q.write_index + i) = c) := by
  induction cs generalizing q with
  | nil =>
    exact ⟨q, rfl, h0, by simp, by simp, rfl, fun i _ => rfl, by simp⟩
  | cons c cs ih =>
    simp only [List.length_cons] at hw
    have hmod : (q.write_index + 1) % 512 = q.write_index + 1 :=
      Nat.mod_eq_of_lt (by omega)
    have hne : (q.write_index + 1) % 512 ≠ q.read_index := by
      rw [hmod, h0]; omega
    have henq : platform_enqueue_work q c = some
        { q with
          entries := fun i => if i = q.write_index then c else q.entries i
          completion_target := q.completion_target + 1
          write_index := (q.write_index + 1) % 512 } := by
      unfold platform_enqueue_work
      rw [if_neg hne]
    obtain ⟨q2, heq, h1, h2, h3, h4, h5, h6⟩ := ih
      { q with
        entries := fun i => if i = q.write_index then c else q.entries i
        completion_target := q.completion_target + 1
        write_index := (q.write_index + 1) % 512 }
      h0 (by simp only [hmod]; omega)
    simp only [hmod] at h2 h3 h5 h6
    refine ⟨q2, ?_, h1, by simp; omega, by simp; omega, h4, ?_, ?_⟩
    · unfold enqueue_all
      rw [henq]
      exact heq
    · intro i hi
      rw [h5 i (by omega)]
      show (if i = q.write_index then c else q.entries i) = q.entries i
      rw [if_neg (by omega)]
    · intro i d hd
      match i, hd with
      | 0, hd =>
        simp only [List.getElem?_cons_zero, Option.some.injEq] at hd
        subst hd
        rw [Nat.add_zero, h5 q.write_index (by omega)]
        show (if q.write_index = q.write_index then c else q.entries q.write_index) = c
        rw [if_pos rfl]
      | i + 1, hd =>
        simp only [List.getElem?_cons_succ] at hd
        have := h6 i d hd
        rw [show q.write_index + (i + 1) = q.write_index + 1 + i by omega]
        exact this

theorem complete_loop_run {σ : Type} (ps : List (σ → σ)) (q : platform_work_queue σ)
    (s : σ)
    (hr : q.read_index + ps.length = q.write_index)
    (hc : q.completion_count + ps.length = q.completion_target)
    (hw : q.write_index ≤ 511)
    (he : ∀ i : Nat, ∀ c, ps[i]? = some c → q.entries (q.read_index + i) = c) :
    complete_queue_loop (ps.length + 1) q s =
      some ({ q with read_index := q.write_index,
                     completion_count := q.completion_target },
            ps.foldl (fun s c => c s) s) := by
  induction ps generalizing q s with
  | nil =>
    simp only [List.length_nil, Nat.add_zero] at hr hc
    unfold complete_queue_loop
    rw [if_neg (by omega)]
    simp only [List.foldl_nil]
    congr 1
    congr 1
    cases q
    simp_all
  | cons c ps ih =>
    simp only [List.length_cons] at hr hc
    have hlt : q.completion_target > q.completion_count := by omega
    have hne : q.read_index ≠ q.write_index := by omega
    have hmod : (q.read_index + 1) % 512 = q.read_index + 1 :=
      Nat.mod_eq_of_lt (by omega)
    show complete_queue_loop (ps.length + 1 + 1) q s = _
    unfold complete_queue_loop
    rw [if_pos hlt]
    unfold linux_dequeue_work
    rw [if_neg hne]
    simp only []
    have hc0 : q.entries q.read_index = c := by
      have := he 0 c (by simp)
      rwa [Nat.add_zero] at this
    rw [hc0, hmod]
    have := ih
      { q with read_index := q.read_index + 1,
               completion_count := q.completion_count + 1 }
      (c s) (by simp; omega) (by simp; omega) (by simpa using hw)
      (by intro i d hd
          show q.entries (q.read_index + 1 + i) = d
          have := he (i + 1) d (by simpa using hd)
          rwa [show q.read_index + (i + 1) = q.read_index + 1 + i by omega] at this)
    rw [this]
    simp only [List.foldl_cons]


theorem enqueue_all_wrap_isSome {σ : Type} (cs : List (σ → σ)) (q : platform_work_queue σ)
    (hr : q.read_index < 512) (hw : q.write_index < 512)
    (h : (q.write_index + 512 - q.read_index) % 512 + cs.length ≤ 511) :
    ∃ q2, enqueue_all q cs = some q2 ∧ q2.read_index = q.read_index ∧
      q2.write_index = (q.write_index + cs.length) % 512 := by
  induction cs generalizing q with
  | nil =>
    exact ⟨q, rfl, rfl, by simp [Nat.mod_eq_of_lt hw]⟩
  | cons c cs ih =>
    simp only [List.length_cons] at h
    have hne : (q.write_index + 1) % 512 ≠ q.read_index := by omega
    have henq : platform_enqueue_work q c = some
        { q with
          entries := fun i => if i = q.write_index then c else q.entries i
          completion_target := q.completion_target + 1
          write_index := (q.write_index + 1) % 512 } := by
      unfold platform_enqueue_work
      rw [if_neg hne]
    obtain ⟨q2, heq, h1, h2⟩ := ih
      { q with
        entries := fun i => if i = q.write_index then c else q.entries i
        completion_target := q.completion_target + 1
        write_index := (q.write_index + 1) % 512 }
      hr (by simp; omega) (by simp; omega)
    refine ⟨q2, ?_, h1, ?_⟩
    · unfold enqueue_all
      rw [henq]
      exact heq
    · simp only at h2
      rw [h2]
      simp only [List.length_cons]
      omega

/-! ## Rasterizer lemmas -/

/-! ## Flat index arithmetic helpers -/

theorem flat_lt {w h y r : ℤ} (hw : 0 < w) (hy : 0 ≤ y) (hyh : y ≤ h - 1)
    (hr : 0 ≤ r) (hrw : r ≤ w - 1) : 0 ≤ y * w + r ∧ y * w + r < w * h := by
  constructor
  · have := mul_nonneg hy (le_of_lt hw)
    omega
  · calc y * w + r < (y + 1) * w := by ring_nf; omega
      _ ≤ h * w := mul_le_mul_of_nonneg_right (by omega) (le_of_lt hw)
      _ = w * h := mul_comm h w

theorem flat_decomp {w h j : ℤ} (hw : 0 < w) (h0 : 0 ≤ j) (hj : j < w * h) :
    0 ≤ j / w ∧ j / w ≤ h - 1 ∧ 0 ≤ j % w ∧ j % w ≤ w - 1 ∧ j = (j / w) * w + j % w := by
  have hmod := Int.emod_nonneg j (by omega : w ≠ 0)
  have hmod2 := Int.emod_lt_of_pos j hw
  have hdm := Int.ediv_add_emod j w
  have hdiv0 : 0 ≤ j / w := Int.ediv_nonneg h0 (le_of_lt hw)
  have hdivh : j / w < h := by
    rw [Int.ediv_lt_iff_lt_mul hw, mul_comm]
    exact hj
  have hcomm : (j / w) * w = w * (j / w) := mul_comm _ _
  exact ⟨hdiv0, by omega, hmod, by omega, by omega⟩

theorem mem_chunkStarts {w x : ℤ} (h4 : w % 4 = 0) :
    x ∈ chunkStarts w ↔ 0 ≤ x ∧ x % 4 = 0 ∧ x < w := by
  unfold chunkStarts
  simp only [List.mem_map, List.mem_range]
  constructor
  · rintro ⟨k, hk, rfl⟩
    omega
  · rintro ⟨h0, hm, hlt⟩
    exact ⟨(x / 4).toNat, by omega, by omega⟩

theorem immediate_clear_memory (destination : render_bitmap) (color : Nat)
    (h4 : destination.width % 4 = 0) (hw : 0 < destination.width) (j : ℤ) :
    (immediate_clear destination color).memory j =
      if 0 ≤ j ∧ j < destination.width * destination.height then color
      else destination.memory j := by
  have hstep : (immediate_clear destination color).memory =
      ((intRange 0 (destination.height - 1)).flatMap
          (fun y => (chunkStarts destination.width).map (fun x => (y, x)))).foldl
        (fun mem p => u32_4x_storeu mem (p.1 * destination.width + p.2) (u32_4x_set1 color))
        destination.memory := by
    simp only [immediate_clear]
    rw [foldl_over_flatMap]
    congr 1
    funext mem y
    rw [List.foldl_map]
  rw [hstep, @foldl_store4_const (ℤ × ℤ) (fun p => p.1 * destination.width + p.2) color _ _ j]
  have hiff : (∃ p ∈ (intRange 0 (destination.height - 1)).flatMap
        (fun y => (chunkStarts destination.width).map (fun x => (y, x))),
      p.1 * destination.width + p.2 ≤ j ∧ j ≤ p.1 * destination.width + p.2 + 3) ↔
      (0 ≤ j ∧ j < destination.width * destination.height) := by
    constructor
    · rintro ⟨⟨y, x⟩, hmem, hj1, hj2⟩
      simp only [List.mem_flatMap, List.mem_map] at hmem
      obtain ⟨y2, hy2, x2, hx2, hpair⟩ := hmem
      obtain ⟨rfl, rfl⟩ : y2 = y ∧ x2 = x := by
        constructor <;> { cases hpair; rfl }
      rw [mem_intRange] at hy2
      rw [mem_chunkStarts h4] at hx2
      simp only at hj1 hj2
      obtain ⟨hA, hB⟩ := flat_lt (h := destination.height) hw hy2.1 hy2.2
        (show (0:ℤ) ≤ j - y2 * destination.width by omega)
        (show j - y2 * destination.width ≤ destination.width - 1 by omega)
      constructor <;> omega
    · rintro ⟨h0, hj⟩
      obtain ⟨hd0, hdh, hm0, hmw, hde⟩ := flat_decomp hw h0 hj
      have hh : 0 < destination.height := by
        by_contra hh
        push_neg at hh
        nlinarith
      refine ⟨(j / destination.width, j % destination.width - j % destination.width % 4),
        ?_, ?_, ?_⟩
      · simp only [List.mem_flatMap, List.mem_map]
        refine ⟨j / destination.width, mem_intRange.mpr ⟨hd0, by omega⟩,
          j % destination.width - j % destination.width % 4,
          (mem_chunkStarts h4).mpr ⟨by omega, by omega, by omega⟩, rfl⟩
      · simp only
        omega
      · simp only
        omega
  rw [if_congr hiff rfl rfl]

theorem flat_inj {w x x2 y y2 : ℤ} (hw : 0 < w) (hx0 : 0 ≤ x) (hxw : x < w)
    (hx20 : 0 ≤ x2) (hx2w : x2 < w) (heq : y2 * w + x2 = y * w + x) :
    y2 = y ∧ x2 = x := by
  have hx2 : x2 = x := by
    have h1 := Int.add_mul_emod_self_left x2 w y2
    have h2 := Int.add_mul_emod_self_left x w y
    have h3 : x2 % w = x2 := Int.emod_eq_of_lt hx20 hx2w
    have h4 : x % w = x := Int.emod_eq_of_lt hx0 hxw
    have h5 : x2 + w * y2 = x + w * y := by
      have c1 : y2 * w = w * y2 := mul_comm _ _
      have c2 : y * w = w * y := mul_comm _ _
      omega
    rw [h5] at h1
    omega
  subst hx2
  have hy : y2 * w = y * w := by omega
  exact ⟨mul_right_cancel₀ (by omega) hy, rfl⟩

theorem immediate_rectangle_memory (destination : render_bitmap) (min max : v2)
    (color : Nat) (hw : 0 < destination.width) (x y : ℤ)
    (hx0 : 0 ≤ x) (hxw : x < destination.width) :
    (immediate_rectangle destination min max color).memory (y * destination.width + x) =
      if MAXIMUM 0 (trunc_q min.x) ≤ x ∧ x ≤ MINIMUM (trunc_q max.x) (destination.width - 1) ∧
         MAXIMUM 0 (trunc_q min.y) ≤ y ∧ y ≤ MINIMUM (trunc_q max.y) (destination.height - 1)
      then color else destination.memory (y * destination.width + x) := by
  have hstep : (immediate_rectangle destination min max color).memory =
      ((intRange (MAXIMUM 0 (trunc_q min.y)) (MINIMUM (trunc_q max.y) (destination.height - 1))).flatMap
          (fun b => (intRange (MAXIMUM 0 (trunc_q min.x)) (MINIMUM (trunc_q max.x) (destination.width - 1))).map
            (fun a => (b, a)))).foldl
        (fun mem p => storePixel mem (p.1 * destination.width + p.2) color)
        destination.memory := by
    simp only [immediate_rectangle]
    rw [foldl_over_flatMap]
    congr 1
    funext mem b
    rw [List.foldl_map]
  rw [hstep, @foldl_storePixel_const (ℤ × ℤ) (fun p => p.1 * destination.width + p.2)
      color _ _ (y * destination.width + x)]
  have hiff : (∃ p ∈ (intRange (MAXIMUM 0 (trunc_q min.y)) (MINIMUM (trunc_q max.y) (destination.height - 1))).flatMap
        (fun b => (intRange (MAXIMUM 0 (trunc_q min.x)) (MINIMUM (trunc_q max.x) (destination.width - 1))).map
          (fun a => (b, a))),
      p.1 * destination.width + p.2 = y * destination.width + x) ↔
      (MAXIMUM 0 (trunc_q min.x) ≤ x ∧ x ≤ MINIMUM (trunc_q max.x) (destination.width - 1) ∧
       MAXIMUM 0 (trunc_q min.y) ≤ y ∧ y ≤ MINIMUM (trunc_q max.y) (destination.height - 1)) := by
    constructor
    · rintro ⟨p, hmem, heq⟩
      simp only [List.mem_flatMap, List.mem_map] at hmem
      obtain ⟨b2, hb2, a2, ha2, rfl⟩ := hmem
      rw [mem_intRange] at hb2 ha2
      simp only at heq
      have ha0 : 0 ≤ a2 := by
        have := ha2.1
        simp only [MAXIMUM] at this
        split at this <;> omega
      have haw : a2 < destination.width := by
        have := ha2.2
        simp only [MINIMUM] at this
        split at this <;> omega
      obtain ⟨hby, hax⟩ := flat_inj hw hx0 hxw ha0 haw heq
      subst hby
      subst hax
      exact ⟨ha2.1, ha2.2, hb2.1, hb2.2⟩
    · rintro ⟨h1, h2, h3, h4⟩
      refine ⟨(y, x), ?_, rfl⟩
      simp only [List.mem_flatMap, List.mem_map]
      exact ⟨y, mem_intRange.mpr ⟨h3, h4⟩, x, mem_intRange.mpr ⟨h1, h2⟩, rfl⟩
  rw [if_congr hiff rfl rfl]

theorem immediate_rectangle_memory_out (destination : render_bitmap) (min max : v2)
    (color : Nat) (hw : 0 < destination.width) (j : ℤ)
    (hj : j < 0 ∨ destination.width * destination.height ≤ j) :
    (immediate_rectangle destination min max color).memory j = destination.memory j := by
  have hstep : (immediate_rectangle destination min max color).memory =
      ((intRange (MAXIMUM 0 (trunc_q min.y)) (MINIMUM (trunc_q max.y) (destination.height - 1))).flatMap
          (fun b => (intRange (MAXIMUM 0 (trunc_q min.x)) (MINIMUM (trunc_q max.x) (destination.width - 1))).map
            (fun a => (b, a)))).foldl
        (fun mem p => storePixel mem (p.1 * destination.width + p.2) color)
        destination.memory := by
    simp only [immediate_rectangle]
    rw [foldl_over_flatMap]
    congr 1
    funext mem b
    rw [List.foldl_map]
  rw [hstep, @foldl_storePixel_const (ℤ × ℤ) (fun p => p.1 * destination.width + p.2)
      color _ _ j]
  rw [if_neg]
  rintro ⟨p, hmem, heq⟩
  simp only [List.mem_flatMap, List.mem_map] at hmem
  obtain ⟨b2, hb2, a2, ha2, rfl⟩ := hmem
  rw [mem_intRange] at hb2 ha2
  simp only at heq
  have hb0 : 0 ≤ b2 := by
    have := hb2.1
    simp only [MAXIMUM] at this
    split at this <;> omega
  have hbh : b2 ≤ destination.height - 1 := by
    have := hb2.2
    simp only [MINIMUM] at this
    split at this <;> omega
  have ha0 : 0 ≤ a2 := by
    have := ha2.1
    simp only [MAXIMUM] at this
    split at this <;> omega
  have haw : a2 ≤ destination.width - 1 := by
    have := ha2.2
    simp only [MINIMUM] at this
    split at this <;> omega
  obtain ⟨hA, hB⟩ := flat_lt (h := destination.height) hw hb0 hbh ha0 haw
  omega

theorem screen_color_lanes (am : ℚ) (s0 s1 s2 s3 d0 d1 d2 d3 : Nat) :
    screen_color am ⟨s0, s1, s2, s3⟩ ⟨d0, d1, d2, d3⟩ =
      ⟨screen_pixel am s0 d0, screen_pixel am s1 d1,
       screen_pixel am s2 d2, screen_pixel am s3 d3⟩ := by
  simp only [screen_pixel, screen_color, u32_4x_set1, u32_4x_and, u32_4x_or, u32_4x_srli,
    u32_4x_slli, f32_4x_set1, f32_4x_add, f32_4x_sub, f32_4x_mul, f32_4x_convert_u32_4x,
    u32_4x_convert_f32_4x]

theorem chunk_cover_iff {w h j : ℤ} (h4 : w % 4 = 0) (hw : 0 < w) :
    (∃ p ∈ (intRange 0 (h - 1)).flatMap (fun y => (chunkStarts w).map (fun x => (y, x))),
       p.1 * w + p.2 ≤ j ∧ j ≤ p.1 * w + p.2 + 3) ↔ (0 ≤ j ∧ j < w * h) := by
  constructor
  · rintro ⟨p, hmem, hj1, hj2⟩
    simp only [List.mem_flatMap, List.mem_map] at hmem
    obtain ⟨y2, hy2, x2, hx2, rfl⟩ := hmem
    rw [mem_intRange] at hy2
    rw [mem_chunkStarts h4] at hx2
    simp only at hj1 hj2
    obtain ⟨hA, hB⟩ := flat_lt (h := h) hw hy2.1 hy2.2
      (show (0:ℤ) ≤ j - y2 * w by omega)
      (show j - y2 * w ≤ w - 1 by omega)
    constructor <;> omega
  · rintro ⟨h0, hj⟩
    obtain ⟨hd0, hdh, hm0, hmw, hde⟩ := flat_decomp hw h0 hj
    have hh : 0 < h := by
      by_contra hh
      push_neg at hh
      nlinarith
    refine ⟨(j / w, j % w - j % w % 4), ?_, ?_, ?_⟩
    · simp only [List.mem_flatMap, List.mem_map]
      refine ⟨j / w, mem_intRange.mpr ⟨hd0, by omega⟩,
        j % w - j % w % 4, (mem_chunkStarts h4).mpr ⟨by omega, by omega, by omega⟩, rfl⟩
    · simp only
      omega
    · simp only
      omega

theorem pairwise_lt_intRange (lo hi : ℤ) : (intRange lo hi).Pairwise (· < ·) := by
  unfold intRange
  refine List.Pairwise.map _ ?_ (List.pairwise_lt_range _)
  intro a b hab
  omega

theorem pairwise_chunkStarts (w : ℤ) :
    (chunkStarts w).Pairwise (fun a b => a + 4 ≤ b) := by
  unfold chunkStarts
  refine List.Pairwise.map _ ?_ (List.pairwise_lt_range _)
  intro a b hab
  omega

theorem screen_keys_pairwise (w h : ℤ) (h4 : w % 4 = 0) (hw : 0 < w) :
    ((intRange 0 (h - 1)).flatMap (fun y => (chunkStarts w).map (fun x => (y, x)))).Pairwise
      (fun a b => (a.1 * w + a.2) + 4 ≤ b.1 * w + b.2 ∨ (b.1 * w + b.2) + 4 ≤ a.1 * w + a.2) := by
  rw [List.pairwise_flatMap]
  constructor
  · intro y hy
    refine List.Pairwise.map _ ?_ (pairwise_chunkStarts w)
    intro a b hab
    left
    simp only
    omega
  · refine (pairwise_lt_intRange 0 (h - 1)).imp ?_
    intro y1 y2 hy12 p1 hp1 p2 hp2
    simp only [List.mem_map] at hp1 hp2
    obtain ⟨x1, hx1, rfl⟩ := hp1
    obtain ⟨x2, hx2, rfl⟩ := hp2
    rw [mem_chunkStarts h4] at hx1 hx2
    left
    simp only
    have hm : (y1 + 1) * w ≤ y2 * w := mul_le_mul_of_nonneg_right (by omega) (le_of_lt hw)
    have hr : (y1 + 1) * w = y1 * w + w := by ring
    omega

theorem immediate_screen_bitmap_memory (destination source : render_bitmap)
    (alpha_modulation : ℚ) (hweq : source.width = destination.width)
    (h4 : destination.width % 4 = 0) (hw : 0 < destination.width) (j : ℤ) :
    (immediate_screen_bitmap destination source alpha_modulation).memory j =
      if 0 ≤ j ∧ j < destination.width * destination.height
      then screen_pixel alpha_modulation (source.memory j) (destination.memory j)
      else destination.memory j := by
  have hstep : (immediate_screen_bitmap destination source alpha_modulation).memory =
      ((intRange 0 (destination.height - 1)).flatMap
          (fun y => (chunkStarts destination.width).map (fun x => (y, x)))).foldl
        (fun mem p => u32_4x_storeu mem (p.1 * destination.width + p.2)
          ⟨screen_pixel alpha_modulation (source.memory (p.1 * destination.width + p.2))
             (mem (p.1 * destination.width + p.2)),
           screen_pixel alpha_modulation (source.memory (p.1 * destination.width + p.2 + 1))
             (mem (p.1 * destination.width + p.2 + 1)),
           screen_pixel alpha_modulation (source.memory (p.1 * destination.width + p.2 + 2))
             (mem (p.1 * destination.width + p.2 + 2)),
           screen_pixel alpha_modulation (source.memory (p.1 * destination.width + p.2 + 3))
             (mem (p.1 * destination.width + p.2 + 3))⟩)
        destination.memory := by
    simp only [immediate_screen_bitmap, hweq]
    rw [foldl_over_flatMap]
    congr 1
    funext mem y
    rw [List.foldl_map]
    simp only [u32_4x_loadu, screen_color_lanes]
  rw [hstep,
    @foldl_chunkT (ℤ × ℤ)
      (fun i v => screen_pixel alpha_modulation (source.memory i) v)
      (fun p => p.1 * destination.width + p.2) _
      (screen_keys_pairwise destination.width destination.height h4 hw)
      destination.memory j]
  rw [if_congr (chunk_cover_iff h4 hw) rfl rfl]

theorem and255 (x : Nat) : x &&& 255 = x % 256 := by
  have h := Nat.and_pow_two_sub_one_eq_mod x 8
  norm_num at h
  exact h

theorem or_split (k x y : Nat) (hy : y < 2 ^ k) : x * 2 ^ k ||| y = x * 2 ^ k + y := by
  rw [Nat.mul_comm]
  exact (Nat.mul_add_lt_is_or hy x).symm

theorem screen_pixel_zero (s d : Nat) : screen_pixel 0 s d = d % 2 ^ 24 := by
  simp only [screen_pixel, screen_color, u32_4x_set1, u32_4x_and, u32_4x_or, u32_4x_srli,
    u32_4x_slli, f32_4x_set1, f32_4x_add, f32_4x_sub, f32_4x_mul, f32_4x_convert_u32_4x,
    u32_4x_convert_f32_4x, cvt_lane]
  norm_num [round_natCast]
  have h1 : d >>> 16 &&& 255 ≤ 255 := Nat.and_le_right
  have h2 : d >>> 8 &&& 255 ≤ 255 := Nat.and_le_right
  have h3 : d &&& 255 ≤ 255 := Nat.and_le_right
  rw [show (((d >>> 16 &&& 255 : Nat) : ℤ) % 4294967296).toNat = d >>> 16 &&& 255 by omega,
      show (((d >>> 8 &&& 255 : Nat) : ℤ) % 4294967296).toNat = d >>> 8 &&& 255 by omega,
      show (((d &&& 255 : Nat) : ℤ) % 4294967296).toNat = d &&& 255 by omega]
  rw [Nat.shiftLeft_eq, Nat.shiftLeft_eq,
      Nat.mod_eq_of_lt (show (d >>> 16 &&& 255) * 2 ^ 16 < 4294967296 by omega),
      Nat.mod_eq_of_lt (show (d >>> 8 &&& 255) * 2 ^ 8 < 4294967296 by omega)]
  rw [or_split 16 _ _ (show (d >>> 8 &&& 255) * 2 ^ 8 < 2 ^ 16 by omega)]
  rw [show (d >>> 16 &&& 255) * 2 ^ 16 + (d >>> 8 &&& 255) * 2 ^ 8
        = ((d >>> 16 &&& 255) * 2 ^ 8 + (d >>> 8 &&& 255)) * 2 ^ 8 by ring]
  rw [or_split 8 _ _ (show d &&& 255 < 2 ^ 8 by omega)]
  simp only [Nat.shiftRight_eq_div_pow, and255]
  omega

theorem pack_or_mul (a r g b : Nat) (ha : a ≤ 255) (hr : r ≤ 255) (hg : g ≤ 255)
    (hb : b ≤ 255) :
    (r * 2 ^ 16 ||| g * 2 ^ 8) ||| (b ||| a * 2 ^ 24) =
      a * 2 ^ 24 + r * 2 ^ 16 + g * 2 ^ 8 + b := by
  calc (r * 2 ^ 16 ||| g * 2 ^ 8) ||| (b ||| a * 2 ^ 24)
      = a * 2 ^ 24 ||| (r * 2 ^ 16 ||| (g * 2 ^ 8 ||| b)) := by
        rw [Nat.or_comm b, ← Nat.or_assoc, Nat.or_comm _ (a * 2 ^ 24), Nat.or_assoc,
          Nat.or_assoc]
    _ = a * 2 ^ 24 ||| (r * 2 ^ 16 ||| (g * 2 ^ 8 + b)) := by
        rw [or_split 8 g b (by omega)]
    _ = a * 2 ^ 24 ||| (r * 2 ^ 16 + (g * 2 ^ 8 + b)) := by
        rw [or_split 16 r _ (by omega)]
    _ = a * 2 ^ 24 + (r * 2 ^ 16 + (g * 2 ^ 8 + b)) := by
        rw [or_split 24 a _ (by omega)]
    _ = a * 2 ^ 24 + r * 2 ^ 16 + g * 2 ^ 8 + b := by ring

theorem round_bounds {x : ℚ} {n : ℤ} (h0 : 0 ≤ x) (hn : x ≤ (n : ℚ)) :
    0 ≤ round x ∧ round x ≤ n := by
  rw [round_eq]
  constructor
  · exact Int.le_floor.mpr (by push_cast; linarith)
  · have : ⌊x + 1 / 2⌋ < n + 1 := Int.floor_lt.mpr (by push_cast; linarith)
    omega

theorem pack_lanes (R G B A : ℚ) (hR0 : 0 ≤ R) (hR : R ≤ 255) (hG0 : 0 ≤ G) (hG : G ≤ 255)
    (hB0 : 0 ≤ B) (hB : B ≤ 255) (hA0 : 0 ≤ A) (hA : A ≤ 765) :
    (((round R % 2 ^ 32).toNat <<< 16 % 2 ^ 32 ||| (round G % 2 ^ 32).toNat <<< 8 % 2 ^ 32) |||
     ((round B % 2 ^ 32).toNat ||| (round A % 2 ^ 32).toNat <<< 24 % 2 ^ 32)) >>> 24
      = (round A).toNat % 256 := by
  obtain ⟨hr1, hr2⟩ := round_bounds (n := 255) hR0 (by exact_mod_cast hR)
  obtain ⟨hg1, hg2⟩ := round_bounds (n := 255) hG0 (by exact_mod_cast hG)
  obtain ⟨hb1, hb2⟩ := round_bounds (n := 255) hB0 (by exact_mod_cast hB)
  obtain ⟨ha1, ha2⟩ := round_bounds (n := 765) hA0 (by exact_mod_cast hA)
  have e1 : (round R % 2 ^ 32).toNat = (round R).toNat := by omega
  have e2 : (round G % 2 ^ 32).toNat = (round G).toNat := by omega
  have e3 : (round B % 2 ^ 32).toNat = (round B).toNat := by omega
  have e4 : (round A % 2 ^ 32).toNat = (round A).toNat := by omega
  have e5 : (round R).toNat * 2 ^ 16 % 2 ^ 32 = (round R).toNat * 2 ^ 16 :=
    Nat.mod_eq_of_lt (by omega)
  have e6 : (round G).toNat * 2 ^ 8 % 2 ^ 32 = (round G).toNat * 2 ^ 8 :=
    Nat.mod_eq_of_lt (by omega)
  have e7 : (round A).toNat * 2 ^ 24 % 2 ^ 32 = (round A).toNat % 256 * 2 ^ 24 := by
    omega
  rw [e1, e2, e3, e4, Nat.shiftLeft_eq, Nat.shiftLeft_eq, Nat.shiftLeft_eq, e5, e6, e7,
      pack_or_mul _ _ _ _ (by omega) (by omega) (by omega) (by omega),
      Nat.shiftRight_eq_div_pow]
  omega

theorem screen_pixel_alpha (am : ℚ) (s d : Nat) (ham0 : 0 ≤ am) (ham1 : am ≤ 1)
    (hsr : s >>> 16 &&& 255 ≤ s >>> 24 &&& 255)
    (hsg : s >>> 8 &&& 255 ≤ s >>> 24 &&& 255)
    (hsb : s &&& 255 ≤ s >>> 24 &&& 255) :
    screen_pixel am s d >>> 24 =
      (round ((255 : ℚ) * ((am * (s >>> 24 &&& 255 : Nat) / 255) *
        ((d >>> 24 &&& 255 : Nat) / 255 + 2)))).toNat % 256 := by
  have hsa : s >>> 24 &&& 255 ≤ 255 := Nat.and_le_right
  have hdr : d >>> 16 &&& 255 ≤ 255 := Nat.and_le_right
  have hdg : d >>> 8 &&& 255 ≤ 255 := Nat.and_le_right
  have hdb : d &&& 255 ≤ 255 := Nat.and_le_right
  have hda : d >>> 24 &&& 255 ≤ 255 := Nat.and_le_right
  simp only [screen_pixel, screen_color, u32_4x_set1, u32_4x_and, u32_4x_or, u32_4x_srli,
    u32_4x_slli, f32_4x_set1, f32_4x_add, f32_4x_sub, f32_4x_mul, f32_4x_convert_u32_4x,
    u32_4x_convert_f32_4x, cvt_lane, Nat.cast_ofNat, Nat.cast_one]
  have hsaq : ((s >>> 24 &&& 255 : Nat) : ℚ) ≤ 255 := by exact_mod_cast hsa
  have hsaq0 : (0 : ℚ) ≤ ((s >>> 24 &&& 255 : Nat) : ℚ) := Nat.cast_nonneg _
  have hdaq : ((d >>> 24 &&& 255 : Nat) : ℚ) ≤ 255 := by exact_mod_cast hda
  have hdaq0 : (0 : ℚ) ≤ ((d >>> 24 &&& 255 : Nat) : ℚ) := Nat.cast_nonneg _
  have ht0 : (0 : ℚ) ≤ am / 255 * ((s >>> 24 &&& 255 : Nat) : ℚ) := by positivity
  have ht1 : am / 255 * ((s >>> 24 &&& 255 : Nat) : ℚ) ≤ 1 := by
    rw [div_mul_eq_mul_div, div_le_one (by norm_num)]
    calc am * ((s >>> 24 &&& 255 : Nat) : ℚ) ≤ 1 * 255 :=
          mul_le_mul ham1 hsaq hsaq0 (by norm_num)
      _ = 255 := by norm_num
  have hchan : ∀ sc dc : Nat, sc ≤ s >>> 24 &&& 255 → dc ≤ 255 →
      0 ≤ (1 - am / 255 * ((s >>> 24 &&& 255 : Nat) : ℚ)) * (dc : ℚ) + (sc : ℚ) * am ∧
      (1 - am / 255 * ((s >>> 24 &&& 255 : Nat) : ℚ)) * (dc : ℚ) + (sc : ℚ) * am ≤ 255 := by
    intro sc dc hsc hdc
    have hscq : ((sc : ℚ)) ≤ ((s >>> 24 &&& 255 : Nat) : ℚ) := by exact_mod_cast hsc
    have hdcq : ((dc : ℚ)) ≤ 255 := by exact_mod_cast hdc
    have hscq0 : (0 : ℚ) ≤ (sc : ℚ) := Nat.cast_nonneg _
    have hdcq0 : (0 : ℚ) ≤ (dc : ℚ) := Nat.cast_nonneg _
    constructor
    · have h1 := mul_nonneg (sub_nonneg.mpr ht1) hdcq0
      have h2 := mul_nonneg hscq0 ham0
      linarith
    · have h1 : (1 - am / 255 * ((s >>> 24 &&& 255 : Nat) : ℚ)) * (dc : ℚ) ≤
          (1 - am / 255 * ((s >>> 24 &&& 255 : Nat) : ℚ)) * 255 :=
        mul_le_mul_of_nonneg_left hdcq (sub_nonneg.mpr ht1)
      have h2 : (sc : ℚ) * am ≤ ((s >>> 24 &&& 255 : Nat) : ℚ) * am :=
        mul_le_mul_of_nonneg_right hscq ham0
      have h3 : (255 : ℚ) * (am / 255 * ((s >>> 24 &&& 255 : Nat) : ℚ)) =
          ((s >>> 24 &&& 255 : Nat) : ℚ) * am := by ring
      linarith
  have hdanorm0 : (0 : ℚ) ≤ 1 / 255 * ((d >>> 24 &&& 255 : Nat) : ℚ) := by positivity
  have hdanorm1 : 1 / 255 * ((d >>> 24 &&& 255 : Nat) : ℚ) ≤ 1 := by
    nlinarith
  have hA0 : (0 : ℚ) ≤ (am / 255 * ((s >>> 24 &&& 255 : Nat) : ℚ) *
        (1 / 255 * ((d >>> 24 &&& 255 : Nat) : ℚ)) +
      am / 255 * ((s >>> 24 &&& 255 : Nat) : ℚ) +
      am / 255 * ((s >>> 24 &&& 255 : Nat) : ℚ)) * 255 := by
    have := mul_nonneg ht0 hdanorm0
    nlinarith
  have hA765 : (am / 255 * ((s >>> 24 &&& 255 : Nat) : ℚ) *
        (1 / 255 * ((d >>> 24 &&& 255 : Nat) : ℚ)) +
      am / 255 * ((s >>> 24 &&& 255 : Nat) : ℚ) +
      am / 255 * ((s >>> 24 &&& 255 : Nat) : ℚ)) * 255 ≤ 765 := by
    have hprod : am / 255 * ((s >>> 24 &&& 255 : Nat) : ℚ) *
        (1 / 255 * ((d >>> 24 &&& 255 : Nat) : ℚ)) ≤ 1 :=
      mul_le_one₀ ht1 hdanorm0 hdanorm1
    nlinarith
  obtain ⟨hR0, hR255⟩ := hchan (s >>> 16 &&& 255) (d >>> 16 &&& 255) hsr hdr
  obtain ⟨hG0, hG255⟩ := hchan (s >>> 8 &&& 255) (d >>> 8 &&& 255) hsg hdg
  obtain ⟨hB0, hB255⟩ := hchan (s &&& 255) (d &&& 255) hsb hdb
  have hmain := pack_lanes _ _ _ _ hR0 hR255 hG0 hG255 hB0 hB255 hA0 hA765
  refine Eq.trans hmain ?_
  congr 3
  ring

theorem clamp01_bounds (w : ℚ) :
    0 ≤ (if (if w < 0 then 0 else w) > 1 then 1 else if w < 0 then 0 else w) ∧
    (if (if w < 0 then 0 else w) > 1 then 1 else if w < 0 then 0 else w) ≤ 1 := by
  by_cases h1 : w < 0
  · norm_num [h1]
  · by_cases h2 : w > 1
    · simp [h1, h2]
    · simp only [h1, if_false, h2]
      push_neg at h1 h2
      exact ⟨h1, h2⟩

theorem trunc_clamp_bounds (v : ℚ) (sw : ℤ) (hv0 : 0 ≤ v) (hv1 : v ≤ 1) (hsw : 3 ≤ sw) :
    1 ≤ 1 + trunc_q (v * ((sw : ℚ) - 3) + 1 / 2) ∧
    1 + trunc_q (v * ((sw : ℚ) - 3) + 1 / 2) ≤ sw - 2 := by
  have hswq : (3 : ℚ) ≤ (sw : ℚ) := by exact_mod_cast hsw
  have hprod0 : 0 ≤ v * ((sw : ℚ) - 3) := mul_nonneg hv0 (by linarith)
  have hprod1 : v * ((sw : ℚ) - 3) ≤ (sw : ℚ) - 3 := by nlinarith
  unfold trunc_q
  rw [if_neg (by linarith)]
  constructor
  · have h := Int.le_floor.mpr (show ((0 : ℤ) : ℚ) ≤ v * ((sw : ℚ) - 3) + 1 / 2 by push_cast; linarith)
    omega
  · have h := Int.floor_lt.mpr (show v * ((sw : ℚ) - 3) + 1 / 2 < ((sw - 2 : ℤ) : ℚ) by push_cast; linarith)
    omega

theorem source_coord_bounds (sw rw x : ℤ) (hsw : 3 ≤ sw) :
    1 ≤ source_coord sw rw x ∧ source_coord sw rw x ≤ sw - 2 := by
  simp only [source_coord]
  obtain ⟨h0, h1⟩ := clamp01_bounds ((x : ℚ) / ((rw : ℚ) - 1))
  exact trunc_clamp_bounds _ sw h0 h1 hsw

theorem source_coord_exact (sw t : ℤ) (hsw : 4 ≤ sw) (h0 : 0 ≤ t) (h1 : t ≤ sw - 3) :
    source_coord sw (sw - 2) t = 1 + t := by
  simp only [source_coord]
  have hden : (((sw - 2 : ℤ) : ℚ) - 1) = (sw : ℚ) - 3 := by push_cast; ring
  have hpos : (0 : ℚ) < (sw : ℚ) - 3 := by
    have : ((1 : ℤ) : ℚ) ≤ ((sw - 3 : ℤ) : ℚ) := by exact_mod_cast (by omega : (1:ℤ) ≤ sw - 3)
    push_cast at this
    linarith
  rw [hden]
  have hu0 : (0 : ℚ) ≤ (t : ℚ) / ((sw : ℚ) - 3) :=
    div_nonneg (by exact_mod_cast h0) (le_of_lt hpos)
  have hu1 : (t : ℚ) / ((sw : ℚ) - 3) ≤ 1 := by
    rw [div_le_one hpos]
    have : ((t : ℤ) : ℚ) ≤ ((sw - 3 : ℤ) : ℚ) := by exact_mod_cast h1
    push_cast at this
    linarith
  rw [if_neg (not_lt.mpr hu0), if_neg (not_lt.mpr hu1),
      div_mul_cancel₀ _ (ne_of_gt hpos)]
  unfold trunc_q
  rw [if_neg (show ¬((t : ℚ) + 1 / 2 < 0) by
        intro hcon
        have ht : (0 : ℚ) ≤ (t : ℚ) := by exact_mod_cast h0
        linarith)]
  rw [show ((t : ℚ) + 1 / 2) = ((t : ℤ) : ℚ) + 1 / 2 by norm_num, Int.floor_int_add]
  norm_num

theorem rect_keys_pairwise (w ylo yhi xlo xhi : ℤ) (hw : 0 < w)
    (hx0 : 0 ≤ xlo) (hxw : xhi ≤ w - 1) :
    ((intRange ylo yhi).flatMap (fun y => (intRange xlo xhi).map (fun x => (y, x)))).Pairwise
      (fun a b => a.1 * w + a.2 ≠ b.1 * w + b.2) := by
  rw [List.pairwise_flatMap]
  constructor
  · intro y hy
    refine List.Pairwise.map _ ?_ (pairwise_lt_intRange xlo xhi)
    intro a b hab
    simp only
    omega
  · refine (pairwise_lt_intRange ylo yhi).imp ?_
    intro y1 y2 h12 p1 hp1 p2 hp2
    simp only [List.mem_map] at hp1 hp2
    obtain ⟨x1, hx1, rfl⟩ := hp1
    obtain ⟨x2, hx2, rfl⟩ := hp2
    rw [mem_intRange] at hx1 hx2
    simp only
    intro heq
    obtain ⟨hy, hx⟩ := flat_inj hw (by omega) (by omega) (by omega) (by omega) heq
    omega


/-! ## The claims -/

/-- Claim C1: with the fixed grid configuration (30 by 20 screen tiles,
6 by 4 render tiles), the render-tile task array built by
render_stationary_tiles_all has 24 tasks, and every tile cell (tilex, tiley)
of the grid lies in the tile range of exactly one task: a partition with no
gaps and no overlaps. -/
theorem claim_C1 :
    render_tiles.length = RENDER_TILE_COUNT_X * RENDER_TILE_COUNT_Y ∧
    ∀ tilex < SCREEN_TILE_COUNT_X, ∀ tiley < SCREEN_TILE_COUNT_Y,
      render_tiles.countP (fun t => covers t tilex tiley) = 1 := by
  constructor
  · decide
  · decide

theorem claim_C1_witness :
    7 < SCREEN_TILE_COUNT_X ∧ 11 < SCREEN_TILE_COUNT_Y ∧
    render_tiles.countP (fun t => covers t 7 11) = 1 :=
  ⟨by decide, by decide, claim_C1.2 7 (by decide) 11 (by decide)⟩

/-- Claim C2: for every N below the 512 capacity, enqueuing N work items
into an initially empty queue and then running platform_complete_queue with
zero background workers (producer-only interleaving) terminates with the
loop fuel N+1, executes every callback exactly once in enqueue order (the
final world is the in-order fold of the callbacks), and returns with both
counters reset to zero. -/
theorem claim_C2 {σ : Type} (cs : List (σ → σ)) (s : σ) (h : cs.length < 512) :
    ∃ qf, producer_only_run cs s = some (qf, cs.foldl (fun s c => c s) s) ∧
      qf.completion_target = 0 ∧ qf.completion_count = 0 := by
  obtain ⟨q2, heq, h1, h2, h3, h4, _, h6⟩ :=
    enqueue_all_no_wrap cs (emptyQueue σ) rfl (by simp [emptyQueue]; omega)
  simp only [emptyQueue] at h2 h3 h4 h6
  have hloop := complete_loop_run cs q2 s (by omega) (by omega) (by omega)
    (by intro i c hc
        rw [h1]
        exact h6 i c hc)
  refine ⟨{ q2 with read_index := q2.write_index, completion_count := 0, completion_target := 0 }, ?_, rfl, rfl⟩
  unfold producer_only_run
  rw [heq]
  show platform_complete_queue (cs.length + 1) q2 s = _
  unfold platform_complete_queue
  rw [hloop]
  rfl

/-- Witness for claim C2: 64 increment tasks leave the shared counter at
64 when platform_complete_queue returns. -/
theorem claim_C2_witness :
    (List.replicate 64 (fun n => n + 1) : List (Nat → Nat)).length < 512 ∧
    ∃ qf, producer_only_run (List.replicate 64 (fun n => n + 1)) (0 : Nat) =
        some (qf, 64) ∧
      qf.completion_target = 0 ∧ qf.completion_count = 0 := by
  refine ⟨by simp, ?_⟩
  have h := claim_C2 (List.replicate 64 (fun n : Nat => n + 1)) 0 (by simp)
  have hfold : (List.replicate 64 (fun n : Nat => n + 1)).foldl (fun s c => c s) 0 = 64 := by
    rfl
  rwa [hfold] at h

/-- Claim C3 (amended): for N enqueued tasks, at the moment the spin loop
of platform_complete_queue exits, completion_count = N = completion_target
and every task has executed; the function then resets both counters to zero
before returning, so at the moment platform_complete_queue returns the
counters are 0, not N. -/
theorem claim_C3 {σ : Type} (cs : List (σ → σ)) (s : σ) (h : cs.length < 512) :
    ∃ q2, enqueue_all (emptyQueue σ) cs = some q2 ∧
      q2.write_index = cs.length ∧
      q2.completion_target = cs.length ∧
      complete_queue_loop (cs.length + 1) q2 s =
        some ({ q2 with read_index := q2.write_index,
                        completion_count := q2.completion_target },
              cs.foldl (fun s c => c s) s) ∧
      platform_complete_queue (cs.length + 1) q2 s =
        some ({ q2 with read_index := q2.write_index,
                        completion_count := 0, completion_target := 0 },
              cs.foldl (fun s c => c s) s) := by
  obtain ⟨q2, heq, h1, h2, h3, h4, _, h6⟩ :=
    enqueue_all_no_wrap cs (emptyQueue σ) rfl (by simp [emptyQueue]; omega)
  simp only [emptyQueue] at h2 h3 h4 h6
  have hloop := complete_loop_run cs q2 s (by omega) (by omega) (by omega)
    (by intro i c hc
        rw [h1]
        exact h6 i c hc)
  refine ⟨q2, heq, by omega, by omega, hloop, ?_⟩
  unfold platform_complete_queue
  rw [hloop]
  rfl

/-- Witness for claim C3 at a single concrete task. -/
theorem claim_C3_witness :
    ([fun n => n + 5] : List (Nat → Nat)).length < 512 ∧
    ∃ q2, enqueue_all (emptyQueue Nat) [fun n => n + 5] = some q2 ∧
      q2.write_index = 1 ∧ q2.completion_target = 1 ∧
      complete_queue_loop 2 q2 0 =
        some ({ q2 with read_index := q2.write_index,
                        completion_count := q2.completion_target }, 5) ∧
      platform_complete_queue 2 q2 0 =
        some ({ q2 with read_index := q2.write_index,
                        completion_count := 0, completion_target := 0 }, 5) := by
  refine ⟨by simp, ?_⟩
  have h := claim_C3 ([fun n => n + 5] : List (Nat → Nat)) 0 (by simp)
  simpa using h

/-- Counterexample to claim C3 as stated: after one task completes,
platform_complete_queue returns with completion_count = completion_target
= 0, not 1 = N. -/
theorem claim_C3_counterexample :
    (producer_only_run [fun n => n + 1] (0 : Nat)).map
        (fun r => (r.1.completion_count, r.1.completion_target, r.2)) =
      some (0, 0, 1) ∧
    ¬ ((0 : Nat) = 1 ∧ (0 : Nat) = 1) := by
  constructor
  · rfl
  · simp

/-- Claim C9: the enqueue assertion new_write_index != read_index fails
exactly when 511 entries are outstanding; and under the scheduler usage of
24 enqueues into an empty queue (read_index = write_index) the assertion
never fires. -/
theorem claim_C9 :
    (∀ (σ : Type) (q : platform_work_queue σ) (c : σ → σ),
      q.read_index < 512 → q.write_index < 512 →
      (platform_enqueue_work q c = none ↔
        (q.write_index + 512 - q.read_index) % 512 = 511)) ∧
    (∀ (σ : Type) (q : platform_work_queue σ) (cs : List (σ → σ)),
      q.read_index = q.write_index → q.write_index < 512 →
      cs.length = RENDER_TILE_COUNT_X * RENDER_TILE_COUNT_Y →
      (enqueue_all q cs).isSome) := by
  constructor
  · intro σ q c hr hw
    unfold platform_enqueue_work
    constructor
    · intro hnone
      by_cases hne : (q.write_index + 1) % 512 = q.read_index
      · omega
      · rw [if_neg hne] at hnone
        cases hnone
    · intro h511
      rw [if_pos (by omega)]
  · intro σ q cs hr hw hlen
    obtain ⟨q2, heq, _, _⟩ := enqueue_all_wrap_isSome cs q (by omega) hw
      (by rw [hlen]; simp only [RENDER_TILE_COUNT_X, RENDER_TILE_COUNT_Y]; omega)
    rw [heq]
    rfl

/-- Witness for claim C9 at the empty queue and at 24 concrete tasks. -/
theorem claim_C9_witness :
    ((emptyQueue Nat).read_index < 512 ∧ (emptyQueue Nat).write_index < 512 ∧
      (platform_enqueue_work (emptyQueue Nat) (fun n => n) = none ↔
        ((emptyQueue Nat).write_index + 512 - (emptyQueue Nat).read_index) % 512 = 511)) ∧
    ((emptyQueue Nat).read_index = (emptyQueue Nat).write_index ∧
      (List.replicate 24 (fun (n : Nat) => n)).length = RENDER_TILE_COUNT_X * RENDER_TILE_COUNT_Y ∧
      (enqueue_all (emptyQueue Nat) (List.replicate 24 (fun (n : Nat) => n))).isSome) := by
  refine ⟨⟨by simp [emptyQueue], by simp [emptyQueue], ?_⟩, rfl, by simp [RENDER_TILE_COUNT_X, RENDER_TILE_COUNT_Y], ?_⟩
  · exact claim_C9.1 Nat (emptyQueue Nat) (fun n => n) (by simp [emptyQueue]) (by simp [emptyQueue])
  · exact claim_C9.2 Nat (emptyQueue Nat) (List.replicate 24 (fun n => n)) rfl
      (by simp [emptyQueue]) (by simp [RENDER_TILE_COUNT_X, RENDER_TILE_COUNT_Y])

/-- Claim C7: for a buffer whose width is a positive multiple of 4,
immediate_clear sets every one of the width*height pixels to the color and
writes nothing outside the buffer. -/
theorem claim_C7 (buffer : render_bitmap) (color : Nat)
    (h4 : buffer.width % 4 = 0) (hw : 0 < buffer.width) :
    (∀ j : ℤ, 0 ≤ j ∧ j < buffer.width * buffer.height →
      (immediate_clear buffer color).memory j = color) ∧
    (∀ j : ℤ, ¬(0 ≤ j ∧ j < buffer.width * buffer.height) →
      (immediate_clear buffer color).memory j = buffer.memory j) := by
  constructor
  · intro j hj
    rw [immediate_clear_memory buffer color h4 hw j, if_pos hj]
  · intro j hj
    rw [immediate_clear_memory buffer color h4 hw j, if_neg hj]

/-- Witness for claim C7 on a concrete 4 by 2 buffer. -/
theorem claim_C7_witness :
    ((4 : ℤ) % 4 = 0 ∧ (0 : ℤ) < 4) ∧
    (immediate_clear ⟨4, 2, 0, 0, fun _ => 7⟩ 5).memory 3 = 5 ∧
    (immediate_clear ⟨4, 2, 0, 0, fun _ => 7⟩ 5).memory 9 = 7 := by
  refine ⟨⟨by decide, by decide⟩, ?_, ?_⟩
  · exact (claim_C7 ⟨4, 2, 0, 0, fun _ => 7⟩ 5 (by decide) (by decide)).1 3 (by decide)
  · exact (claim_C7 ⟨4, 2, 0, 0, fun _ => 7⟩ 5 (by decide) (by decide)).2 9 (by decide)

/-- Claim C8: immediate_rectangle sets exactly the pixels (x, y) with
max(0, trunc(min.x)) <= x <= min(trunc(max.x), width-1) and the analogous y
bounds to the color (opaque overwrite), leaves every other in-buffer pixel
unchanged, and writes nothing outside the buffer. -/
theorem claim_C8 (buffer : render_bitmap) (min max : v2) (color : Nat)
    (hw : 0 < buffer.width) :
    (∀ x y : ℤ, 0 ≤ x → x < buffer.width →
      (immediate_rectangle buffer min max color).memory (y * buffer.width + x) =
        if MAXIMUM 0 (trunc_q min.x) ≤ x ∧ x ≤ MINIMUM (trunc_q max.x) (buffer.width - 1) ∧
           MAXIMUM 0 (trunc_q min.y) ≤ y ∧ y ≤ MINIMUM (trunc_q max.y) (buffer.height - 1)
        then color else buffer.memory (y * buffer.width + x)) ∧
    (∀ j : ℤ, j < 0 ∨ buffer.width * buffer.height ≤ j →
      (immediate_rectangle buffer min max color).memory j = buffer.memory j) := by
  constructor
  · intro x y hx0 hxw
    exact immediate_rectangle_memory buffer min max color hw x y hx0 hxw
  · intro j hj
    exact immediate_rectangle_memory_out buffer min max color hw j hj

/-- Witness for claim C8: the concrete 32 by 32 scenario, cleared to opaque
black, rectangle (4,4)-(10,10) white: (5,5) is white, (0,0) stays black,
and addresses beyond the buffer are untouched. -/
theorem claim_C8_witness :
    (0 : ℤ) < 32 ∧
    (immediate_rectangle ⟨32, 32, 0, 0, fun _ => 0xFF000000⟩ ⟨4, 4⟩ ⟨10, 10⟩ 0xFFFFFFFF).memory
        (5 * 32 + 5) = 0xFFFFFFFF ∧
    (immediate_rectangle ⟨32, 32, 0, 0, fun _ => 0xFF000000⟩ ⟨4, 4⟩ ⟨10, 10⟩ 0xFFFFFFFF).memory
        (0 * 32 + 0) = 0xFF000000 ∧
    (immediate_rectangle ⟨32, 32, 0, 0, fun _ => 0xFF000000⟩ ⟨4, 4⟩ ⟨10, 10⟩ 0xFFFFFFFF).memory
        2000 = 0xFF000000 := by
  have h := claim_C8 ⟨32, 32, 0, 0, fun _ => 0xFF000000⟩ ⟨4, 4⟩ ⟨10, 10⟩ 0xFFFFFFFF (by decide)
  refine ⟨by decide, ?_, ?_, ?_⟩
  · have h2 := h.1 5 5 (by decide) (by decide)
    rwa [if_pos (by constructor <;> [decide; constructor <;> [decide; constructor <;> decide]])] at h2
  · have h2 := h.1 0 0 (by decide) (by decide)
    rwa [if_neg (by decide)] at h2
  · exact h.2 2000 (by decide)

/-- Claim C4 (amended): screen blending with alpha_modulation 0 leaves the
RGB channels (low 24 bits) of every destination pixel unchanged but clears
the alpha byte to zero; it is not a full no-op. Pixels outside the buffer
are untouched. -/
theorem claim_C4 (destination source : render_bitmap)
    (hweq : source.width = destination.width) (hheq : source.height = destination.height)
    (h4 : destination.width % 4 = 0) (hw : 0 < destination.width) :
    (∀ j : ℤ, 0 ≤ j ∧ j < destination.width * destination.height →
      (immediate_screen_bitmap destination source 0).memory j =
        destination.memory j % 2 ^ 24) ∧
    (∀ j : ℤ, ¬(0 ≤ j ∧ j < destination.width * destination.height) →
      (immediate_screen_bitmap destination source 0).memory j = destination.memory j) := by
  constructor <;> intro j hj
  · rw [immediate_screen_bitmap_memory destination source 0 hweq h4 hw j, if_pos hj,
        screen_pixel_zero]
  · rw [immediate_screen_bitmap_memory destination source 0 hweq h4 hw j, if_neg hj]

/-- Counterexample to claim C4 as stated: a destination pixel 0xFF000000
becomes 0x00000000 under screen blending with alpha_modulation 0; its alpha
channel is changed. -/
theorem claim_C4_counterexample :
    (immediate_screen_bitmap ⟨4, 1, 0, 0, fun _ => 0xFF000000⟩
        ⟨4, 1, 0, 0, fun _ => 0⟩ 0).memory 0 = 0 ∧
    (0 : Nat) ≠ 0xFF000000 := by
  constructor
  · rw [immediate_screen_bitmap_memory ⟨4, 1, 0, 0, fun _ => 0xFF000000⟩
        ⟨4, 1, 0, 0, fun _ => 0⟩ 0 rfl (by decide) (by decide) 0,
        if_pos (by decide), screen_pixel_zero]
    decide
  · decide

/-- Witness for claim C4 on concrete 4 by 1 buffers. -/
theorem claim_C4_witness :
    ((4 : ℤ) = 4 ∧ (1 : ℤ) = 1 ∧ (4 : ℤ) % 4 = 0 ∧ (0 : ℤ) < 4) ∧
    (immediate_screen_bitmap ⟨4, 1, 0, 0, fun _ => 0xFF112233⟩
        ⟨4, 1, 0, 0, fun _ => 0xAABBCCDD⟩ 0).memory 2 = 0xFF112233 % 2 ^ 24 ∧
    (immediate_screen_bitmap ⟨4, 1, 0, 0, fun _ => 0xFF112233⟩
        ⟨4, 1, 0, 0, fun _ => 0xAABBCCDD⟩ 0).memory 7 = 0xFF112233 := by
  refine ⟨⟨rfl, rfl, by decide, by decide⟩, ?_, ?_⟩
  · exact (claim_C4 ⟨4, 1, 0, 0, fun _ => 0xFF112233⟩ ⟨4, 1, 0, 0, fun _ => 0xAABBCCDD⟩
      rfl rfl (by decide) (by decide)).1 2 (by decide)
  · exact (claim_C4 ⟨4, 1, 0, 0, fun _ => 0xFF112233⟩ ⟨4, 1, 0, 0, fun _ => 0xAABBCCDD⟩
      rfl rfl (by decide) (by decide)).2 7 (by decide)

/-- Claim C5 (amended): for every in-buffer pixel, with 0 <= alpha_modulation
<= 1 and a premultiplied source pixel, the output alpha byte equals
round(255 * (src_a_normalized * (dst_a_normalized + 2))) reduced modulo 256
by the 32-bit shift wrap; it equals the claimed formula exactly whenever the
formula value fits in a byte. -/
theorem claim_C5 (destination source : render_bitmap) (alpha_modulation : ℚ)
    (hweq : source.width = destination.width) (hheq : source.height = destination.height)
    (h4 : destination.width % 4 = 0) (hw : 0 < destination.width)
    (ham0 : 0 ≤ alpha_modulation) (ham1 : alpha_modulation ≤ 1)
    (j : ℤ) (hj : 0 ≤ j ∧ j < destination.width * destination.height)
    (hpr : source.memory j >>> 16 &&& 255 ≤ source.memory j >>> 24 &&& 255)
    (hpg : source.memory j >>> 8 &&& 255 ≤ source.memory j >>> 24 &&& 255)
    (hpb : source.memory j &&& 255 ≤ source.memory j >>> 24 &&& 255) :
    (immediate_screen_bitmap destination source alpha_modulation).memory j >>> 24 =
      (round ((255 : ℚ) * ((alpha_modulation * (source.memory j >>> 24 &&& 255 : Nat) / 255) *
        ((destination.memory j >>> 24 &&& 255 : Nat) / 255 + 2)))).toNat % 256 := by
  rw [immediate_screen_bitmap_memory destination source alpha_modulation hweq h4 hw j,
      if_pos hj, screen_pixel_alpha alpha_modulation _ _ ham0 ham1 hpr hpg hpb]

/-- Counterexample to claim C5 as stated: with source and destination alpha
255 and alpha_modulation 1 the formula yields 765, outside the byte range,
and the stored alpha byte is 765 mod 256 = 253. -/
theorem claim_C5_counterexample :
    (immediate_screen_bitmap ⟨4, 1, 0, 0, fun _ => 0xFFFFFFFF⟩
        ⟨4, 1, 0, 0, fun _ => 0xFFFFFFFF⟩ 1).memory 0 >>> 24 = 253 ∧
    (round ((255 : ℚ) * ((1 * (255 : ℚ) / 255) * ((255 : ℚ) / 255 + 2)))) = 765 ∧
    (253 : Nat) ≠ 765 ∧ (253 : Nat) ≠ 255 := by
  refine ⟨?_, by norm_num [round_eq], by decide, by decide⟩
  rw [immediate_screen_bitmap_memory ⟨4, 1, 0, 0, fun _ => 0xFFFFFFFF⟩
      ⟨4, 1, 0, 0, fun _ => 0xFFFFFFFF⟩ 1 rfl (by decide) (by decide) 0,
      if_pos (by decide),
      screen_pixel_alpha 1 0xFFFFFFFF 0xFFFFFFFF (by norm_num) (le_refl 1)
        (by decide) (by decide) (by decide)]
  rw [show (0xFFFFFFFF >>> 24 &&& 255 : Nat) = 255 by decide]
  norm_num [round_eq]
  decide

/-- Witness for claim C5 at a concrete pixel whose formula value is 510,
stored as 510 mod 256 = 254. -/
theorem claim_C5_witness :
    ((4 : ℤ) = 4 ∧ (0 : ℚ) ≤ 1 ∧ (1 : ℚ) ≤ 1 ∧ (0 : ℤ) ≤ 1 ∧ (1 : ℤ) < 4 * 1) ∧
    (immediate_screen_bitmap ⟨4, 1, 0, 0, fun _ => 0⟩
        ⟨4, 1, 0, 0, fun _ => 0xFF000000⟩ 1).memory 1 >>> 24 = 254 := by
  refine ⟨⟨rfl, by norm_num, le_refl 1, by decide, by decide⟩, ?_⟩
  have h := claim_C5 ⟨4, 1, 0, 0, fun _ => 0⟩ ⟨4, 1, 0, 0, fun _ => 0xFF000000⟩ 1
    rfl rfl (by decide) (by decide) (by norm_num) (le_refl 1) 1 (by decide)
    (by decide) (by decide) (by decide)
  rw [h]
  rw [show ((⟨4, 1, 0, 0, fun _ => 0xFF000000⟩ : render_bitmap).memory 1 >>> 24 &&& 255 : Nat) = 255 by decide,
      show ((⟨4, 1, 0, 0, fun _ => 0⟩ : render_bitmap).memory 1 >>> 24 &&& 255 : Nat) = 0 by decide]
  norm_num [round_eq]
  decide

/-- Claim C10: for any source dimensions at least 3 and render dimensions
at least 2, the texel coordinates computed by immediate_bitmap satisfy
1 <= sourcex <= width-2 and 1 <= sourcey <= height-2 after the UV clamp,
so the in-bounds assertions hold and the flat read offset is inside the
source buffer. -/
theorem claim_C10 (source_w source_h render_w render_h x y : ℤ)
    (hsw : 3 ≤ source_w) (hsh : 3 ≤ source_h)
    (hrw : 2 ≤ render_w) (hrh : 2 ≤ render_h) :
    1 ≤ source_coord source_w render_w x ∧
    source_coord source_w render_w x ≤ source_w - 2 ∧
    1 ≤ source_coord source_h render_h y ∧
    source_coord source_h render_h y ≤ source_h - 2 ∧
    0 ≤ source_coord source_h render_h y * source_w + source_coord source_w render_w x ∧
    source_coord source_h render_h y * source_w + source_coord source_w render_w x
      < source_w * source_h := by
  obtain ⟨hx1, hx2⟩ := source_coord_bounds source_w render_w x hsw
  obtain ⟨hy1, hy2⟩ := source_coord_bounds source_h render_h y hsh
  obtain ⟨hf1, hf2⟩ := flat_lt (w := source_w) (h := source_h)
    (by omega)
    (show (0 : ℤ) ≤ source_coord source_h render_h y by omega)
    (by omega)
    (show (0 : ℤ) ≤ source_coord source_w render_w x by omega)
    (by omega)
  exact ⟨hx1, hx2, hy1, hy2, hf1, hf2⟩

/-- Witness for claim C10 at the 18 by 18 source size used by the game
tiles. -/
theorem claim_C10_witness :
    ((3 : ℤ) ≤ 18 ∧ (2 : ℤ) ≤ 16) ∧
    1 ≤ source_coord 18 16 5 ∧ source_coord 18 16 5 ≤ 16 ∧
    1 ≤ source_coord 18 16 7 ∧ source_coord 18 16 7 ≤ 16 ∧
    0 ≤ source_coord 18 16 7 * 18 + source_coord 18 16 5 ∧
    source_coord 18 16 7 * 18 + source_coord 18 16 5 < 18 * 18 := by
  refine ⟨⟨by decide, by decide⟩, ?_⟩
  have h := claim_C10 18 18 16 16 5 7 (by decide) (by decide) (by decide) (by decide)
  simpa using h

/-- Claim C6: blitting a source of width and height at least 4 at an
integer position with render size (width-2, height-2) samples the source
texel-for-texel: the destination pixel at offset (i, j) inside the clipped
target rectangle is composited from exactly the source texel (1+i, 1+j)
inside the one-pixel margin. -/
theorem claim_C6 (destination source : render_bitmap) (px py : ℤ)
    (hdw : 0 < destination.width)
    (hsw : 4 ≤ source.width) (hsh : 4 ≤ source.height)
    (dx dy : ℤ)
    (hx1 : max 0 px ≤ dx)
    (hx2 : dx ≤ min (px + (source.width - 2) - 1) (destination.width - 1))
    (hy1 : max 0 py ≤ dy)
    (hy2 : dy ≤ min (py + (source.height - 2) - 1) (destination.height - 1)) :
    (immediate_bitmap destination source (px : ℚ) (py : ℚ)
        (source.width - 2) (source.height - 2)).memory (dy * destination.width + dx) =
      bitmap_pixel
        (source.memory
          ((1 + (dy - max 0 py)) * source.width + (1 + (dx - max 0 px))))
        (destination.memory (dy * destination.width + dx)) := by
  have e1x : floor_s32 ((px : ℤ) : ℚ) = px := by simp [floor_s32]
  have e1y : floor_s32 ((py : ℤ) : ℚ) = py := by simp [floor_s32]
  have e2x : ceiling_s32 ((px : ℚ) + (((source.width - 2 : ℤ) : ℚ) - 1)) =
      px + (source.width - 2) - 1 := by
    rw [show ((px : ℚ) + (((source.width - 2 : ℤ) : ℚ) - 1)) =
        ((px + (source.width - 2) - 1 : ℤ) : ℚ) by push_cast; ring]
    exact Int.ceil_intCast _
  have e2y : ceiling_s32 ((py : ℚ) + (((source.height - 2 : ℤ) : ℚ) - 1)) =
      py + (source.height - 2) - 1 := by
    rw [show ((py : ℚ) + (((source.height - 2 : ℤ) : ℚ) - 1)) =
        ((py + (source.height - 2) - 1 : ℤ) : ℚ) by push_cast; ring]
    exact Int.ceil_intCast _
  have e3x : (if px < 0 then (0 : ℤ) else px) = max 0 px := by split_ifs <;> omega
  have e3y : (if py < 0 then (0 : ℤ) else py) = max 0 py := by split_ifs <;> omega
  have e4x : (if px + (source.width - 2) - 1 ≥ destination.width then destination.width - 1
        else px + (source.width - 2) - 1) =
      min (px + (source.width - 2) - 1) (destination.width - 1) := by split_ifs <;> omega
  have e4y : (if py + (source.height - 2) - 1 ≥ destination.height then destination.height - 1
        else py + (source.height - 2) - 1) =
      min (py + (source.height - 2) - 1) (destination.height - 1) := by split_ifs <;> omega
  have hstep : (immediate_bitmap destination source (px : ℚ) (py : ℚ)
        (source.width - 2) (source.height - 2)).memory =
      ((intRange (max 0 py) (min (py + (source.height - 2) - 1) (destination.height - 1))).flatMap
          (fun b => (intRange (max 0 px) (min (px + (source.width - 2) - 1) (destination.width - 1))).map
            (fun a => (b, a)))).foldl
        (fun mem p => storePixel mem (p.1 * destination.width + p.2)
          (bitmap_pixel
            (source.memory
              (source_coord source.height (source.height - 2) (p.1 - max 0 py) * source.width +
               source_coord source.width (source.width - 2) (p.2 - max 0 px)))
            (mem (p.1 * destination.width + p.2))))
        destination.memory := by
    simp only [immediate_bitmap, e1x, e1y, e2x, e2y, e3x, e3y, e4x, e4y]
    rw [foldl_over_flatMap]
    congr 1
    funext mem b
    rw [List.foldl_map]
  rw [hstep,
      show (1 : ℤ) + (dx - max 0 px) =
        source_coord source.width (source.width - 2) (dx - max 0 px) from
        (source_coord_exact source.width (dx - max 0 px) hsw (by omega) (by omega)).symm,
      show (1 : ℤ) + (dy - max 0 py) =
        source_coord source.height (source.height - 2) (dy - max 0 py) from
        (source_coord_exact source.height (dy - max 0 py) hsh (by omega) (by omega)).symm]
  exact foldl_storeT_applied
    (fun p v => bitmap_pixel
      (source.memory
        (source_coord source.height (source.height - 2) (p.1 - max 0 py) * source.width +
         source_coord source.width (source.width - 2) (p.2 - max 0 px))) v)
    (fun p => p.1 * destination.width + p.2)
    _
    (rect_keys_pairwise destination.width (max 0 py)
      (min (py + (source.height - 2) - 1) (destination.height - 1)) (max 0 px)
      (min (px + (source.width - 2) - 1) (destination.width - 1)) hdw
      (by omega) (by omega))
    destination.memory (dy, dx)
    (by simp only [List.mem_flatMap, List.mem_map]
        exact ⟨dy, mem_intRange.mpr ⟨hy1, hy2⟩, dx, mem_intRange.mpr ⟨hx1, hx2⟩, rfl⟩)

/-- Witness for claim C6 on concrete 8 by 8 destination and 4 by 4 source
bitmaps. -/
theorem claim_C6_witness :
    ((0 : ℤ) < 8 ∧ (4 : ℤ) ≤ 4 ∧ max 0 (1 : ℤ) ≤ 2 ∧
      (2 : ℤ) ≤ min (1 + (4 - 2) - 1) (8 - 1)) ∧
    (immediate_bitmap ⟨8, 8, 0, 0, fun _ => 0xFF000000⟩ ⟨4, 4, 0, 0, fun _ => 0x80402010⟩
        ((1 : ℤ) : ℚ) ((1 : ℤ) : ℚ) (4 - 2) (4 - 2)).memory (2 * 8 + 2) =
      bitmap_pixel 0x80402010 0xFF000000 := by
  refine ⟨⟨by decide, by decide, by decide, by decide⟩, ?_⟩
  have h := claim_C6 ⟨8, 8, 0, 0, fun _ => 0xFF000000⟩ ⟨4, 4, 0, 0, fun _ => 0x80402010⟩ 1 1
    (by decide) (by decide) (by decide) 2 2 (by decide) (by decide) (by decide) (by decide)
  simpa using h
